import Mathlib

/-!
Verification of the geophone firmware (`Geophone.ino`) against its
natural-language specification.

The development is a shallow embedding of the firmware's C code:

* C `short` values are modelled as `Int` values together with an explicit
  16-bit wrap operation `toInt16`; C `int`/`long` arithmetic is modelled as
  exact `Int` arithmetic (both are at least 32 bits wide on the supported
  boards and no intermediate value here exceeds 32 bits).
* C arrays are modelled as total functions `Nat → α` updated with `upd`;
  the code only ever reads indices it has written, so out-of-range
  behaviour never matters for the proved statements.
* The serial port is a list of pending bytes, the EEPROM store holds the
  (exact) threshold value, and `millis()` is an explicit `Nat` argument.
* `double` values written and compared by the threshold protocol are the
  correctly rounded IEEE-754 binary64 values of decimal strings of at
  most 18 characters: the parse is modelled as the exact decimal rational
  rounded to 53 significant bits, nearest-even (all such values are far
  inside the normal binary64 range, so neither overflow nor subnormals
  arise), represented exactly as a rational.  The report path, which
  genuinely computes square roots, is modelled over `ℝ`.
-/

namespace Geophone

/-- Interpret the low 16 bits of an integer as a two's-complement signed
16-bit value; this is the effect of assigning a wider C value to `short`. -/
def toInt16 (x : Int) : Int := (x + 32768) % 65536 - 32768

/-- Pointwise array update, modelling `a[j] = v` on a C array viewed as a
total function. -/
def upd (d : Nat → α) (j : Nat) (v : α) : Nat → α :=
  fun k => if k = j then v else d k

/-- `q15_mul16` from the source: `long product = a * b;` followed by
`(short)( ( product >> 15 ) & 0x0000ffff )`.  The product of two in-range
`short`s is exact in (at least) 32-bit arithmetic, `>> 15` on the signed
product is an arithmetic shift (floor division by `2^15`), `& 0xffff`
keeps the low 16 bits of the two's-complement representation, and the
final cast to `short` reinterprets them as a signed value. -/
def q15_mul16 (a b : Int) : Int :=
  toInt16 ((Int.fdiv (a * b) 32768) % 65536)

/-! ## Bit-reversal permutation (`swap`, `bit_reverse_complex`) -/
/-- `swap` from the source, acting on one of the two parallel arrays: read
both entries, then write them back exchanged.  The C function applies this
simultaneously to the `real` and the `imag` array; since the two arrays are
swapped independently at the same indices, the embedding is polymorphic in
the element type and is applied to each array (or to an array of pairs). -/
def swap (first second : Nat) (f : Nat → α) : Nat → α :=
  fun k => if k = first then f second else if k = second then f first else f k

/-- The inner `for( zeros = 0; nodd & 1; zeros++ ) nodd >>= 1;` loop of
`bit_reverse_complex`: count the trailing one bits of `nodd`.  The first
argument is structural fuel; a 32-bit `unsigned int` has at most 32 bits,
so fuel 32 makes the recursion total without changing the result (the
loop is only ever entered with `nodd = ~i` for `i ≥ 1`, which has a zero
bit among its low 32 bits). -/
def countTrailingOnes : Nat → Nat → Nat
  | 0, _ => 0
  | fuel + 1, n => if n % 2 = 1 then countTrailingOnes fuel (n / 2) + 1 else 0

/-- The main loop of `bit_reverse_complex`, counting `i` down from `N/4`
to 1.  `~i` on a 32-bit `unsigned int` is `4294967295 - i`, and its
trailing-ones count is the trailing-zeros count of `i`. -/
def bit_reverse_loop (halfn quartn nmin1 : Nat) :
    Nat → Nat → Nat → (Nat → α) → (Nat → α)
  | 0, _, _, f => f
  | i + 1, forward, rev, f =>
    let zeros := countTrailingOnes 32 (4294967295 - (i + 1))
    let forward' := forward ^^^ (2 <<< zeros)
    let rev' := rev ^^^ (quartn >>> zeros)
    let f₁ := if forward' < rev' then
        swap (nmin1 ^^^ forward') (nmin1 ^^^ rev') (swap forward' rev' f)
      else f
    let f₂ := swap (forward' ^^^ 1) (rev' ^^^ halfn) f₁
    bit_reverse_loop halfn quartn nmin1 i forward' rev' f₂

/-- `bit_reverse_complex` from the source, for one of the two parallel
arrays (see `swap`): `halfn = N >> 1`, `quartn = N >> 2`, `nmin1 = N - 1`,
with `forward` starting at `halfn`, `rev` starting at `1`, and the loop
counter starting at `quartn`. -/
def bit_reverse_complex (f : Nat → α) (length : Nat) : Nat → α :=
  bit_reverse_loop (length >>> 1) (length >>> 2) (length - 1)
    (length >>> 2) (length >>> 1) 1 f

/-- Reversal of the low `w` bits of `n`. -/
def bitRev : Nat → Nat → Nat
  | 0, _ => 0
  | w + 1, n => n % 2 * 2 ^ w + bitRev w (n / 2)

/-- The index permutation realised by `bit_reverse_complex` on a length-512
array: the algorithm run on the identity index map. -/
def bitrevPerm512 : Nat → Nat := bit_reverse_complex (fun k => k) 512

/-! ## Radix-2 DIT FFT (`complex_add`, `complex_mul`, `fft_radix2_512`)

The complex data is a single array of (real, imaginary) pairs; the source
keeps two parallel `short` arrays indexed identically.  The twiddle-factor
table `twiddle_factors_256_br.h` is static data external to the sources
under verification; both the embedding of the code and the model of the
spec take the two table columns as parameters `Wr`, `Wi`, matching the
claim, which only constrains how the table is addressed. -/
/-- `complex_add` from the source: plain 16-bit additions (each sum is
assigned to a `short`, hence wraps). -/
def complex_add (r₁ i₁ r₂ i₂ : Int) : Int × Int :=
  (toInt16 (r₁ + r₂), toInt16 (i₁ + i₂))

/-- `complex_mul` from the source: `(r1·r2 − i1·i2) + j(r1·i2 + i1·r2)`
with each product taken by `q15_mul16` and each combination assigned to a
`short` (wrapping). -/
def complex_mul (r₁ i₁ r₂ i₂ : Int) : Int × Int :=
  (toInt16 (q15_mul16 r₁ r₂ - q15_mul16 i₁ i₂),
   toInt16 (q15_mul16 r₁ i₂ + q15_mul16 i₁ r₂))

/-- One iteration of the innermost loop of `fft_radix2_512`: compute the
twiddled temporaries with `complex_mul`, store `data[b] − T` into index
`butterfly + wingspan` (the negation of a `short` temporary passed as a
`short` argument wraps, and all arguments are read before the store),
then store into index `butterfly`, whose `complex_add` arguments are read
from the already-updated array. -/
def fft_butterfly_body (WR WI : Int) (wingspan butterfly : Nat)
    (d : Nat → Int × Int) : Nat → Int × Int :=
  let t := complex_mul WR WI (d (butterfly + wingspan)).1
      (d (butterfly + wingspan)).2
  let d₁ := upd d (butterfly + wingspan)
      (complex_add (d butterfly).1 (d butterfly).2
        (toInt16 (-t.1)) (toInt16 (-t.2)))
  upd d₁ butterfly
    (complex_add (d₁ butterfly).1 (d₁ butterfly).2 t.1 t.2)

/-- The innermost butterfly loop of `fft_radix2_512`, iterating
`butterfly` from `lower` for `count = pairs_per_group` steps. -/
def fft_butterfly_loop (WR WI : Int) (wingspan : Nat) :
    Nat → Nat → (Nat → Int × Int) → (Nat → Int × Int)
  | 0, _, d => d
  | count + 1, butterfly, d =>
    fft_butterfly_loop WR WI wingspan count (butterfly + 1)
      (fft_butterfly_body WR WI wingspan butterfly d)

/-- The group loop of `fft_radix2_512`: `group` runs from 0 while
`group < stage`; each group reads its twiddle pair `(Wr group, Wi group)`
and computes the butterflies from `lower = 2 * group * pairs_per_group`. -/
def fft_group_loop (Wr Wi : Nat → Int) (ppg wingspan : Nat) :
    Nat → Nat → (Nat → Int × Int) → (Nat → Int × Int)
  | _, 0, d => d
  | group, remaining + 1, d =>
    fft_group_loop Wr Wi ppg wingspan (group + 1) remaining
      (fft_butterfly_loop (Wr group) (Wi group) wingspan ppg
        (2 * group * ppg) d)

/-- The stage loop of `fft_radix2_512`: `stage` starts at 1 and doubles
while `stage < 512`; after each stage `pairs_per_group` and `wingspan`
halve.  The structural fuel only bounds the iteration count and is chosen
large enough (512) never to be exhausted. -/
def fft_stage_loop (Wr Wi : Nat → Int) :
    Nat → Nat → Nat → Nat → (Nat → Int × Int) → (Nat → Int × Int)
  | 0, _, _, _, d => d
  | fuel + 1, stage, ppg, wingspan, d =>
    if stage < 512 then
      fft_stage_loop Wr Wi fuel (stage * 2) (ppg / 2) (wingspan / 2)
        (fft_group_loop Wr Wi ppg wingspan 0 stage d)
    else d

/-- `fft_radix2_512` from the source: `pairs_per_group` and `wingspan`
start at `length / 2 = 256` and `stage` starts at 1. -/
def fft_radix2_512 (Wr Wi : Nat → Int) (d : Nat → Int × Int) :
    Nat → Int × Int :=
  fft_stage_loop Wr Wi 512 1 256 256 d

/-- Q15 multiply as the spec words it: widen, multiply, arithmetic right
shift by 15, truncate to 16 bits. -/
def q15_widened (a b : Int) : Int := toInt16 (Int.fdiv (a * b) (2 ^ 15))

/-- Complex multiply as the spec words it, combining `q15_widened`
products with wrapping 16-bit add/sub. -/
def cmul_spec (w x : Int × Int) : Int × Int :=
  (toInt16 (q15_widened w.1 x.1 - q15_widened w.2 x.2),
   toInt16 (q15_widened w.1 x.2 + q15_widened w.2 x.1))

/-- One butterfly as the spec words it: `T = W × data[b+wingspan]`, then
`data[b+wingspan] = data[b] − T` and `data[b] = data[b] + T`, both reading
the old `data[b]`, with wrapping 16-bit add/sub. -/
def butterfly_spec (w : Int × Int) (wingspan b : Nat)
    (d : Nat → Int × Int) : Nat → Int × Int :=
  let t := cmul_spec w (d (b + wingspan))
  let old := d b
  upd (upd d (b + wingspan) (toInt16 (old.1 - t.1), toInt16 (old.2 - t.2)))
    b (toInt16 (old.1 + t.1), toInt16 (old.2 + t.2))

/-- The spec's butterfly indices for group `g`: all
`b ∈ [2·g·ppg, 2·g·ppg + ppg)`, in order. -/
def fft_spec_butterflies (w : Int × Int) (wingspan : Nat) :
    Nat → Nat → (Nat → Int × Int) → (Nat → Int × Int)
  | 0, _, d => d
  | count + 1, b, d =>
    fft_spec_butterflies w wingspan count (b + 1) (butterfly_spec w wingspan b d)

/-- The spec's group iteration: groups `g ∈ [0, groupCount)`, each with the
group-indexed twiddle pair `W[g]`. -/
def fft_spec_groups (Wr Wi : Nat → Int) (ppg wingspan : Nat) :
    Nat → Nat → (Nat → Int × Int) → (Nat → Int × Int)
  | _, 0, d => d
  | g, remaining + 1, d =>
    fft_spec_groups Wr Wi ppg wingspan (g + 1) remaining
      (fft_spec_butterflies (Wr g, Wi g) wingspan ppg (2 * g * ppg) d)

/-- The spec's stage iteration: stage number `k` starting at 0, group
count `2 ^ k` (doubling each stage), `pairsPerGroup` and `wingspan`
`256 / 2 ^ k` (halving each stage), for exactly the given number of
remaining stages. -/
def fft_spec_stages (Wr Wi : Nat → Int) :
    Nat → Nat → (Nat → Int × Int) → (Nat → Int × Int)
  | 0, _, d => d
  | remaining + 1, k, d =>
    fft_spec_stages Wr Wi remaining (k + 1)
      (fft_spec_groups Wr Wi (256 / 2 ^ k) (256 / 2 ^ k) 0 (2 ^ k) d)

/-- The 512-point FFT as the spec describes it: exactly 9 stages. -/
def fft_spec (Wr Wi : Nat → Int) (d : Nat → Int × Int) : Nat → Int × Int :=
  fft_spec_stages Wr Wi 9 0 d

/-! ## Threshold protocol (`get_new_threshold`, `loop`)

The serial input is a list of pending bytes; `millis()` is an explicit
`now` argument.  The accumulated prefix of `threshold_string` (the bytes
below `threshold_string_pos`) is modelled as a `List Char`; the C buffer
holds 20 bytes and the accumulation guard is `pos < sizeof − 1 = 19`.
Since only digits and `'.'` are ever accumulated, `atof` parses a
nonnegative decimal; its `double` result is modelled as the exact
decimal value correctly rounded to binary64 (53-bit round-to-nearest,
ties to even), which matters at the acceptance boundary: a string such
as `".99999999999999999"` rounds to exactly 1.0 and is rejected with
`E:OVERFLOW` (see `atof_boundary_overflow`). -/
/-- Digit accumulation, most significant first. -/
def digitsVal : Nat → List Char → Nat
  | acc, [] => acc
  | acc, c :: rest => digitsVal (acc * 10 + (c.toNat - 48)) rest

/-- C `isdigit`-style test used by `get_new_threshold`:
`incoming_byte >= '0' && incoming_byte <= '9'`. -/
def isNumChar (c : Char) : Bool := '0' ≤ c && c ≤ '9'

/-- Floor of the base-2 logarithm (`natLog2Fuel fuel n` halves `n` at
most `fuel` times).  The fuel 128 in `natLog2` keeps the recursion
structural (so it evaluates by kernel reduction) and is exact for every
`n < 2^128`; the protocol's accumulation buffer holds at most 18 digits,
so every value it can parse is below `10^19 < 2^64`. -/
def natLog2Fuel : Nat → Nat → Nat
  | 0, _ => 0
  | fuel + 1, n => if 2 ≤ n then natLog2Fuel fuel (n / 2) + 1 else 0

/-- `⌊log₂ n⌋` (0 for `n < 2`), exact for `n < 2^128`. -/
def natLog2 (n : Nat) : Nat := natLog2Fuel 128 n

/-- Round the fraction `A / B` (with `B > 0`) to the nearest integer,
ties to even — the IEEE-754 default rounding. -/
def roundNearestEven (A B : Nat) : Nat :=
  let f := A / B
  let r := A % B
  if 2 * r < B then f
  else if B < 2 * r then f + 1
  else f + f % 2

/-- Whether `2 ^ c ≤ N / 10 ^ k`, for a possibly negative exponent `c`,
decided in integer arithmetic. -/
def pow2LeDecimal (c : Int) (N k : Nat) : Bool :=
  if 0 ≤ c then decide (2 ^ c.toNat * 10 ^ k ≤ N)
  else decide (10 ^ k ≤ N * 2 ^ (-c).toNat)

/-- The IEEE-754 binary64 value of the decimal `N / 10 ^ k`, as an exact
rational: find the exponent `e` with `2 ^ e ≤ N/10^k < 2 ^ (e+1)` (it is
`⌊log₂ N⌋ − ⌊log₂ 10^k⌋` or one less), scale the value to a 53-bit
significand, and round to nearest, ties to even.  Every value the
protocol can parse lies far inside the normal binary64 range, so
overflow and subnormals never arise.  Only integer operations and a
final `mkRat` are used, so the definition evaluates by kernel
reduction. -/
def double_round (N k : Nat) : ℚ :=
  if N = 0 then 0
  else
    let a := natLog2 N
    let b := natLog2 (10 ^ k)
    let e : Int :=
      if pow2LeDecimal ((a : Int) - b) N k then (a : Int) - b
      else (a : Int) - b - 1
    let s : Int := 52 - e
    let A := if 0 ≤ s then N * 2 ^ s.toNat else N
    let B := if 0 ≤ s then 10 ^ k else 10 ^ k * 2 ^ (-s).toNat
    let f := roundNearestEven A B
    if 0 ≤ s then mkRat f (2 ^ s.toNat) else ((f * 2 ^ (-s).toNat : Nat) : ℚ)

/-- `atof` on strings over the alphabet accepted by the protocol (digits
and dots): an optional integer-digit run, then, if a dot follows, a
fraction-digit run; anything after that (a second dot) is ignored, as
`strtod` stops at the first character that cannot extend the number.
The parsed number `i.f` with `k` fraction digits has exact decimal value
`(i·10^k + f) / 10^k`; the returned `double` is its correctly rounded
binary64 value `double_round (i·10^k + f) k`, as the C library's
correctly rounding `strtod` produces. -/
def atof (s : List Char) : ℚ :=
  let intDigits := s.takeWhile isNumChar
  match s.dropWhile isNumChar with
  | '.' :: rest =>
    let fracDigits := rest.takeWhile isNumChar
    double_round
      (digitsVal 0 intDigits * 10 ^ fracDigits.length + digitsVal 0 fracDigits)
      fracDigits.length
  | _ => double_round (digitsVal 0 intDigits) 0

/-- The static state of `get_new_threshold`: the accumulated live prefix
of `threshold_string` (its length is `threshold_string_pos`) and the
`timestamp` taken when accumulation started. -/
structure ProtoState where
  buf : List Char
  timestamp : Nat
deriving DecidableEq

/-- The serial replies of the threshold protocol. -/
inductive Msg where
  | timeout
  | overflow
  | nonNumeric
  | bufferFull
  | ok (v : ℚ)
deriving DecidableEq

/-- Everything one invocation of `get_new_threshold` produces: the new
static state, the serial input left unconsumed (`flush_serial_input`
empties it), the reply lines printed, and the C return value. -/
structure ThresholdResult where
  state : ProtoState
  rest : List Char
  msgs : List Msg
  ret : ℚ
deriving DecidableEq

/-- `get_new_threshold` from the source.  One invocation: fail with
`E:TIMEOUT` if accumulation is in flight and the 250 ms deadline passed;
otherwise read at most one byte — a terminator parses the buffer and
answers `OK:` or `E:OVERFLOW`, a digit or dot is accumulated if
`threshold_string_pos < 20 - 1`, any other byte answers `E:NON-NUMERIC`,
and a full buffer answers `E:FLUSH` without reading.  Every reply path
flushes the remaining input and resets the accumulation position. -/
def get_new_threshold (st : ProtoState) (now : Nat) (input : List Char) :
    ThresholdResult :=
  if 0 < st.buf.length ∧ st.timestamp + 250 < now then
    ⟨⟨[], st.timestamp⟩, [], [Msg.timeout], -1⟩
  else
    match input with
    | [] => ⟨st, [], [], -1⟩
    | c :: rest =>
      let ts := if st.buf.length = 0 then now else st.timestamp
      if st.buf.length < 20 - 1 then
        if c = '\r' ∨ c = '\n' then
          let threshold := atof st.buf
          if threshold < 0 ∨ 1 ≤ threshold then
            ⟨⟨[], ts⟩, [], [Msg.overflow], -1⟩
          else
            ⟨⟨[], ts⟩, [], [Msg.ok threshold], threshold⟩
        else if isNumChar c || c = '.' then
          ⟨⟨st.buf ++ [c], ts⟩, rest, [], -1⟩
        else
          ⟨⟨[], ts⟩, [], [Msg.nonNumeric], -1⟩
      else
        ⟨⟨[], ts⟩, [], [Msg.bufferFull], -1⟩

/-- `read_amplitude_threshold_from_eeprom` from the source: return the
stored value, or the default `DEFAULT_AMPLITUDE_THRESHOLD = 0.5`
(written `mkRat 1 2` so it evaluates by kernel reduction) if the store
holds 0.0.  The byte-level encoding of the `double` round-trips exactly,
so the store is modelled as holding the value itself. -/
def read_amplitude_threshold_from_eeprom (stored : ℚ) : ℚ :=
  if stored = 0 then mkRat 1 2 else stored

/-- The threshold-related state of the main program: the protocol statics,
the live `amplitude_threshold`, and the EEPROM contents. -/
structure SysState where
  proto : ProtoState
  thr : ℚ
  eeprom : ℚ
deriving DecidableEq

/-- The threshold part of `loop` from the source: poll
`get_new_threshold`; if the returned value is `> 0.0`, write it to EEPROM
and install it as the live threshold. -/
def loop_step (s : SysState) (now : Nat) (input : List Char) :
    SysState × List Char × List Msg :=
  let r := get_new_threshold s.proto now input
  if 0 < r.ret then
    (⟨r.state, r.ret, r.ret⟩, r.rest, r.msgs)
  else
    (⟨r.state, s.thr, s.eeprom⟩, r.rest, r.msgs)

/-- States of the threshold machinery reachable from `setup()`: the
statics start cleared, the live threshold is initialised from the store
(default 0.5 on a zero store), and any number of `loop` polls follow.
The store initially holds 0 (a fresh or unsupported EEPROM reads as
zero) or a value in `(0, 1)` persisted by an earlier accepted update. -/
inductive ReachableSys : SysState → Prop where
  | init (stored : ℚ) (h : stored = 0 ∨ (0 < stored ∧ stored < 1)) :
      ReachableSys ⟨⟨[], 0⟩, read_amplitude_threshold_from_eeprom stored, stored⟩
  | step (s : SysState) (now : Nat) (input : List Char)
      (hs : ReachableSys s) : ReachableSys (loop_step s now input).1

/-- The protocol replies other than acceptance. -/
def isErr : Msg → Bool
  | Msg.ok _ => false
  | _ => true

/-- The startup state of the threshold machinery over a zero store. -/
def sys₀ : SysState := ⟨⟨[], 0⟩, read_amplitude_threshold_from_eeprom 0, 0⟩

/-- `sys₀` after the protocol has consumed `'.'`. -/
def sys₁ : SysState := (loop_step sys₀ 0 ['.']).1

/-- `sys₁` after the protocol has consumed `'7'`. -/
def sys₂ : SysState := (loop_step sys₁ 0 ['7']).1

/-! ## Sampler / double buffer (`start_sampling`, `sampling_interrupt`)

The ISR's index bookkeeping, ready flag, and exposed half-buffer pointer
are modelled exactly; the sample value written by one tick is taken as an
abstract input (its numeric computation from the ADC involves the
floating-point Hamming window, outside this embedding). -/
/-- The sampling globals: `isr_current_geodata_index` (fill),
`isr_hamming_window_index` (window), `geodata_buffer_full` (full), the
exposed `geodata_samples_real` pointer as an offset into
`geodata_samples` (`none` while still null), and the sample buffer. -/
structure SamplerState where
  fill : Nat
  window : Nat
  full : Bool
  ptr : Option Nat
  buf : Nat → Int

/-- `start_sampling` from the source (the buffer-preparation part): both
indices 0, ready flag down; the exposed pointer is still the null of the
zero-initialised global. -/
def start_sampling : SamplerState :=
  ⟨0, 0, false, none, fun _ => 0⟩

/-- `sampling_interrupt` from the source: store the (windowed) sample at
the fill index and advance it, advance the window index; when the fill
index reaches `NUMBER_OF_GEODATA_SAMPLES = 512` expose the first
half-buffer, reset the window index and raise the ready flag; when it
reaches `2·512 = 1024` expose the second half-buffer, wrap the fill index
to 0, reset the window index and raise the ready flag. -/
def sampling_interrupt (sample : Int) (s : SamplerState) : SamplerState :=
  let buf' := upd s.buf s.fill sample
  if s.fill + 1 = 512 then ⟨s.fill + 1, 0, true, some 0, buf'⟩
  else if s.fill + 1 = 1024 then ⟨0, 0, true, some 512, buf'⟩
  else ⟨s.fill + 1, s.window + 1, s.full, s.ptr, buf'⟩

/-- The ready-raising condition of one tick: the branch guards of
`sampling_interrupt` (evaluated on the incremented fill index). -/
def frame_completed (s : SamplerState) : Bool :=
  s.fill + 1 == 512 || s.fill + 1 == 1024

/-- Whether the exposed half-buffer is disjoint from the half currently
accepting samples (the half containing the fill index). -/
def ptr_avoids_filling (s : SamplerState) : Bool :=
  match s.ptr with
  | none => true
  | some off => decide (off / 512 ≠ s.fill / 512)

/-- `n` ticks of the sampling interrupt from the reset state, with an
arbitrary stream of incoming samples. -/
def run_sampler (stream : Nat → Int) : Nat → SamplerState
  | 0 => start_sampling
  | n + 1 => sampling_interrupt (stream n) (run_sampler stream n)

/-! ## Reporter (`report`)

The `double` computations of `report` are modelled over `ℝ` (exact real
arithmetic; the structural claims proved about the emitted line do not
depend on rounding).  Serial output is modelled as a list of emission
events. -/
/-- One serial emission of `report`: a separator comma, a printed
frequency (`Serial.print((short)frequency)`), a printed amplitude
(`Serial.print(amplitude, 4)`, carrying the amplitude value), or the
terminating `Serial.println("")`. -/
inductive Out where
  | comma
  | num (n : Int)
  | amp (a : ℝ)
  | newline

/-- The per-bin amplitude of `report`: components divided by 32768.0,
then `sqrt( real*real + imag*imag )`. -/
noncomputable def magnitude (fr fi : Nat → Int) (bin : Nat) : ℝ :=
  Real.sqrt ((fr bin : ℝ) / 32768 * ((fr bin : ℝ) / 32768) +
    (fi bin : ℝ) / 32768 * ((fi bin : ℝ) / 32768))

/-- The bin loop of `report`, iterating `count` bins upward from `bin`
and threading `first_entry`; returns the emissions and the final
`first_entry` flag.  The printed frequency is
`(short)( SAMPLE_RATE / N * bin + 0.5 )` (truncation of a nonnegative
`double`, i.e. its floor). -/
noncomputable def report_loop (fr fi : Nat → Int) (threshold : ℝ) :
    Nat → Nat → Bool → List Out × Bool
  | 0, _, first => ([], first)
  | count + 1, bin, first =>
    if threshold ≤ magnitude fr fi bin then
      let sep : List Out := if first then [] else [Out.comma]
      let entry : List Out :=
        [Out.num ⌊(512 : ℝ) / 512 * (bin : ℝ) + 0.5⌋, Out.comma,
         Out.amp (magnitude fr fi bin)]
      let r := report_loop fr fi threshold count (bin + 1) false
      (sep ++ entry ++ r.1, r.2)
    else
      report_loop fr fi threshold count (bin + 1) first

/-- `report` from the source: bins from
`lower = LOWEST_FREQUENCY_REPORTED·N/SAMPLE_RATE = 10` through
`upper = HIGHEST_FREQUENCY_REPORTED·N/SAMPLE_RATE = 150` inclusive;
afterwards, if anything was printed, terminate the line and raise
`report_was_created` (the returned flag).  The `length` argument is
taken (and ignored) exactly as in the source. -/
noncomputable def report (fr fi : Nat → Int) (length : Nat) (threshold : ℝ) :
    List Out × Bool :=
  let lower := 10 * 512 / 512
  let upper := 150 * 512 / 512
  let r := report_loop fr fi threshold (upper - lower + 1) lower true
  if r.2 = false then (r.1 ++ [Out.newline], true) else (r.1, false)

/-- The ascending list of `count` bins starting at `b`. -/
def binRange : Nat → Nat → List Nat
  | _, 0 => []
  | b, count + 1 => b :: binRange (b + 1) count

/-- The bins the spec says must be reported: those in `[10, 150]` whose
magnitude reaches the threshold, in ascending order. -/
noncomputable def qualifying (fr fi : Nat → Int) (threshold : ℝ) : List Nat :=
  (binRange 10 141).filter fun b => decide (threshold ≤ magnitude fr fi b)

/-- The spec's emission for one qualifying bin: the rounded frequency
`bin · SampleRate / N = bin`, a comma, and the amplitude. -/
noncomputable def entryOf (fr fi : Nat → Int) (b : Nat) : List Out :=
  [Out.num b, Out.comma, Out.amp (magnitude fr fi b)]

/-- Comma-separated concatenation of emission groups. -/
def joinComma : List (List Out) → List Out
  | [] => []
  | [g] => g
  | g :: g' :: rest => g ++ Out.comma :: joinComma (g' :: rest)

theorem toInt16_emod (x : Int) : toInt16 (x % 65536) = toInt16 x := by
  unfold toInt16; omega

theorem q15_mul16_eq_widened (a b : Int) :
    q15_mul16 a b = toInt16 (Int.fdiv (a * b) 32768) := by
  unfold q15_mul16; exact toInt16_emod _

/-- Claim C4: for every pair of 16-bit signed inputs `a` and `b`,
`q15_mul16 a b` equals the full widened product `a * b` arithmetically
shifted right by 15 (floor division by `2^15`) and truncated to its low
16 bits interpreted in two's complement — i.e. it wraps silently on
overflow and never saturates. -/
theorem C4_q15_mul16_widened_shift_wrap (a b : Int)
    (ha₁ : -32768 ≤ a) (ha₂ : a ≤ 32767)
    (hb₁ : -32768 ≤ b) (hb₂ : b ≤ 32767) :
    q15_mul16 a b = toInt16 (Int.fdiv (a * b) (2 ^ 15)) :=
  q15_mul16_eq_widened a b

/-- Witness for C4 at the extreme input `a = b = -32768`: the true Q15
product would be `+1`, unrepresentable in 16 bits, and the result wraps
to `-32768` instead of saturating. -/
theorem C4_q15_mul16_widened_shift_wrap_witness :
    q15_mul16 (-32768) (-32768) = toInt16 (Int.fdiv ((-32768) * (-32768)) (2 ^ 15))
      ∧ q15_mul16 (-32768) (-32768) = -32768 :=
  ⟨C4_q15_mul16_widened_shift_wrap (-32768) (-32768)
      (by decide) (by decide) (by decide) (by decide),
   by decide⟩

theorem swap_comp (a b : Nat) (f : α → β) (p : Nat → α) :
    swap a b (fun k => f (p k)) = fun k => f (swap a b p k) := by
  funext k
  unfold swap
  by_cases h₁ : k = a
  · simp [h₁]
  · by_cases h₂ : k = b
    · subst h₂; simp [h₁]
    · simp [h₁, h₂]

theorem bit_reverse_loop_comp (halfn quartn nmin1 : Nat) (f : α → β) :
    ∀ (i forward rev : Nat) (p : Nat → α),
      bit_reverse_loop halfn quartn nmin1 i forward rev (fun k => f (p k)) =
        fun k => f (bit_reverse_loop halfn quartn nmin1 i forward rev p k) := by
  intro i
  induction i with
  | zero => intro forward rev p; rfl
  | succ i ih =>
    intro forward rev p
    show bit_reverse_loop halfn quartn nmin1 (i + 1) forward rev
        (fun k => f (p k)) = _
    unfold bit_reverse_loop
    by_cases hc :
        (forward ^^^ (2 <<< countTrailingOnes 32 (4294967295 - (i + 1)))) <
          (rev ^^^ (quartn >>> countTrailingOnes 32 (4294967295 - (i + 1)))) <;>
      simp only [hc, if_true, if_false, swap_comp, ih]

theorem bit_reverse_complex_comp (f : α → β) (p : Nat → α) (length : Nat) :
    bit_reverse_complex (fun k => f (p k)) length =
      fun k => f (bit_reverse_complex p length k) :=
  bit_reverse_loop_comp _ _ _ f _ _ _ p

set_option maxRecDepth 100000 in
set_option maxHeartbeats 8000000 in
theorem bitrevPerm512_spec :
    ((List.range 512).all fun j =>
        (bitrevPerm512 j == bitRev 9 j) && (bitRev 9 j < 512 : Bool) &&
          (bitRev 9 (bitRev 9 j) == j)) = true := by
  decide

/-- Claim C2: `bit_reverse_complex` on length-512 arrays places at index `j` the
element originally at the 9-bit bit-reversal of `j`, for every `j < 512`;
consequently applying it twice restores the original contents (it is an
involution on the first 512 entries, the whole array). -/
theorem C2_bit_reverse_is_bitrev_involution (f : Nat → α) (j : Nat)
    (hj : j < 512) :
    bit_reverse_complex f 512 j = f (bitRev 9 j) ∧
      bit_reverse_complex (bit_reverse_complex f 512) 512 j = f j := by
  have hσ : ∀ i : Nat, i < 512 →
      bitrevPerm512 i = bitRev 9 i ∧ bitRev 9 i < 512 ∧
        bitRev 9 (bitRev 9 i) = i := by
    intro i hi
    have hall := bitrevPerm512_spec
    rw [List.all_eq_true] at hall
    have h := hall i (List.mem_range.mpr hi)
    simp only [Bool.and_eq_true, beq_iff_eq, decide_eq_true_eq] at h
    exact ⟨h.1.1, h.1.2, h.2⟩
  have key : ∀ (g : Nat → α) (i : Nat),
      bit_reverse_complex g 512 i = g (bitrevPerm512 i) := by
    intro g i
    exact congrFun (bit_reverse_complex_comp g (fun k => k) 512) i
  obtain ⟨e₁, lt₁, inv₁⟩ := hσ j hj
  refine ⟨?_, ?_⟩
  · rw [key f j, e₁]
  · rw [key _ j, key f _, e₁]
    obtain ⟨e₂, _, _⟩ := hσ _ lt₁
    rw [e₂, inv₁]

/-- Witness for C2 at `f = id`, `j = 3`. -/
theorem C2_bit_reverse_is_bitrev_involution_witness :
    bit_reverse_complex (fun k : Nat => k) 512 3 = (fun k : Nat => k) (bitRev 9 3) ∧
      bit_reverse_complex (bit_reverse_complex (fun k : Nat => k) 512) 512 3 =
        (fun k : Nat => k) 3 :=
  C2_bit_reverse_is_bitrev_involution (fun k => k) 3 (by decide)

theorem toInt16_add_neg (x y : Int) :
    toInt16 (x + toInt16 (-y)) = toInt16 (x - y) := by
  unfold toInt16; omega

theorem complex_mul_eq_cmul_spec (WR WI : Int) (x : Int × Int) :
    complex_mul WR WI x.1 x.2 = cmul_spec (WR, WI) x := by
  unfold complex_mul cmul_spec q15_widened
  simp only [q15_mul16_eq_widened]
  rfl

theorem fft_butterfly_body_eq_spec (WR WI : Int) (wingspan b : Nat)
    (hws : 0 < wingspan) (d : Nat → Int × Int) :
    fft_butterfly_body WR WI wingspan b d =
      butterfly_spec (WR, WI) wingspan b d := by
  have hne : b ≠ b + wingspan := by omega
  have hupd : ∀ v, upd d (b + wingspan) v b = d b := by
    intro v; unfold upd; simp [hne]
  simp only [fft_butterfly_body, butterfly_spec, complex_mul_eq_cmul_spec, hupd]
  simp only [complex_add, toInt16_add_neg]

theorem fft_butterfly_loop_eq_spec (WR WI : Int) (wingspan : Nat)
    (hws : 0 < wingspan) :
    ∀ (count b : Nat) (d : Nat → Int × Int),
      fft_butterfly_loop WR WI wingspan count b d =
        fft_spec_butterflies (WR, WI) wingspan count b d := by
  intro count
  induction count with
  | zero => intro b d; rfl
  | succ c ih =>
    intro b d
    show fft_butterfly_loop WR WI wingspan (c + 1) b d = _
    unfold fft_butterfly_loop fft_spec_butterflies
    rw [fft_butterfly_body_eq_spec WR WI wingspan b hws d, ih]

theorem fft_group_loop_eq_spec (Wr Wi : Nat → Int) (ppg wingspan : Nat)
    (hws : 0 < wingspan) :
    ∀ (remaining g : Nat) (d : Nat → Int × Int),
      fft_group_loop Wr Wi ppg wingspan g remaining d =
        fft_spec_groups Wr Wi ppg wingspan g remaining d := by
  intro remaining
  induction remaining with
  | zero => intro g d; rfl
  | succ r ih =>
    intro g d
    show fft_group_loop Wr Wi ppg wingspan g (r + 1) d = _
    unfold fft_group_loop fft_spec_groups
    rw [fft_butterfly_loop_eq_spec _ _ _ hws, ih]

theorem fft_stage_loop_eq_spec (Wr Wi : Nat → Int) :
    ∀ (r k fuel : Nat) (d : Nat → Int × Int), k + r = 9 → r ≤ fuel →
      fft_stage_loop Wr Wi fuel (2 ^ k) (256 / 2 ^ k) (256 / 2 ^ k) d =
        fft_spec_stages Wr Wi r k d := by
  intro r
  induction r with
  | zero =>
    intro k fuel d hk _
    have hstage : ¬ 2 ^ k < 512 := by subst hk; norm_num
    cases fuel with
    | zero => rfl
    | succ f =>
      show fft_stage_loop Wr Wi (f + 1) (2 ^ k) _ _ d = d
      unfold fft_stage_loop
      simp [hstage]
  | succ r ih =>
    intro k fuel d hk hfuel
    have hklt : k < 9 := by omega
    have hstage : 2 ^ k < 512 := by
      calc 2 ^ k ≤ 2 ^ 8 := Nat.pow_le_pow_right (by norm_num) (by omega)
        _ < 512 := by norm_num
    have hws : 0 < 256 / 2 ^ k := by
      apply Nat.div_pos
      · calc 2 ^ k ≤ 2 ^ 8 := Nat.pow_le_pow_right (by norm_num) (by omega)
          _ ≤ 256 := by norm_num
      · exact Nat.pos_pow_of_pos k (by norm_num)
    cases fuel with
    | zero => omega
    | succ f =>
      show fft_stage_loop Wr Wi (f + 1) (2 ^ k) _ _ d = _
      unfold fft_stage_loop fft_spec_stages
      simp only [hstage, if_true]
      rw [fft_group_loop_eq_spec Wr Wi _ _ hws]
      have h₁ : 2 ^ k * 2 = 2 ^ (k + 1) := by ring
      have h₂ : 256 / 2 ^ k / 2 = 256 / 2 ^ (k + 1) := by
        rw [Nat.div_div_eq_div_mul, pow_succ]
      rw [h₁, h₂]
      exact ih (k + 1) f _ (by omega) (by omega)

/-- Claim C3: `fft_radix2_512` computes exactly what the spec describes — 9
stages, with the group count doubling and `pairsPerGroup` and `wingspan`
halving per stage, and for each group `g` and butterfly index
`b ∈ [2·g·pairsPerGroup, 2·g·pairsPerGroup + pairsPerGroup)` it computes
`T = W[g] × data[b+wingspan]` with the group-indexed twiddle pair by
fixed-point complex multiply, then `data[b+wingspan] = data[b] − T` and
`data[b] = data[b] + T`, reading the old `data[b]` in both — for every
twiddle table and every input array. -/
theorem C3_fft_radix2_512_matches_spec (Wr Wi : Nat → Int)
    (d : Nat → Int × Int) :
    fft_radix2_512 Wr Wi d = fft_spec Wr Wi d :=
  fft_stage_loop_eq_spec Wr Wi 9 0 512 d rfl (by norm_num)

/-- Case analysis on one invocation of `get_new_threshold`: it either
consumes nothing visible (no reply, return −1), accepts a value in
`[0, 1)` from a buffer of at most 18 accumulated bytes, or rejects with
exactly one error reply, returning −1 with the accumulation cleared. -/
theorem gnt_shape (st : ProtoState) (now : Nat) (input : List Char) :
    ((get_new_threshold st now input).msgs = [] ∧
      (get_new_threshold st now input).ret = -1) ∨
    (∃ v, (get_new_threshold st now input).msgs = [Msg.ok v] ∧
      (get_new_threshold st now input).ret = v ∧ 0 ≤ v ∧ v < 1 ∧
      (get_new_threshold st now input).state.buf = [] ∧
      st.buf.length ≤ 18) ∨
    (∃ e, (get_new_threshold st now input).msgs = [e] ∧ isErr e = true ∧
      (get_new_threshold st now input).ret = -1 ∧
      (get_new_threshold st now input).state.buf = []) := by
  unfold get_new_threshold
  split
  · right; right; exact ⟨Msg.timeout, rfl, rfl, rfl, rfl⟩
  · match input with
    | [] => left; exact ⟨rfl, rfl⟩
    | c :: rest =>
      dsimp only
      split
      · split
        · split
          · right; right; exact ⟨Msg.overflow, rfl, rfl, rfl, rfl⟩
          · right; left
            refine ⟨atof st.buf, rfl, rfl, ?_, ?_, rfl, by omega⟩
            · exact le_of_not_lt fun h => ‹¬ (atof st.buf < 0 ∨ 1 ≤ atof st.buf)› (Or.inl h)
            · exact lt_of_not_le fun h => ‹¬ (atof st.buf < 0 ∨ 1 ≤ atof st.buf)› (Or.inr h)
        · split
          · left; exact ⟨rfl, rfl⟩
          · right; right; exact ⟨Msg.nonNumeric, rfl, rfl, rfl, rfl⟩
      · right; right; exact ⟨Msg.bufferFull, rfl, rfl, rfl, rfl⟩

theorem loop_step_msgs (s : SysState) (now : Nat) (input : List Char) :
    (loop_step s now input).2.2 = (get_new_threshold s.proto now input).msgs := by
  unfold loop_step; dsimp only; split <;> rfl

theorem loop_step_proto (s : SysState) (now : Nat) (input : List Char) :
    (loop_step s now input).1.proto = (get_new_threshold s.proto now input).state := by
  unfold loop_step; dsimp only; split <;> rfl

theorem loop_step_no_update (s : SysState) (now : Nat) (input : List Char)
    (h : ¬ 0 < (get_new_threshold s.proto now input).ret) :
    (loop_step s now input).1.thr = s.thr ∧
      (loop_step s now input).1.eeprom = s.eeprom := by
  unfold loop_step; dsimp only; rw [if_neg h]; exact ⟨rfl, rfl⟩

/-- Claim C5: on every rejection outcome of the threshold protocol (OVERFLOW,
NON-NUMERIC, FLUSH, TIMEOUT), exactly one corresponding error line is
emitted, the partial input is discarded (accumulation position 0, back to
Idle), and neither the live amplitude threshold nor the persisted value
changes. -/
theorem C5_rejection_one_error_no_mutation (st : ProtoState) (thr ee : ℚ)
    (now : Nat) (input : List Char) (m : Msg)
    (hmem : m ∈ (loop_step ⟨st, thr, ee⟩ now input).2.2)
    (herr : isErr m = true) :
    (loop_step ⟨st, thr, ee⟩ now input).2.2 = [m] ∧
    (loop_step ⟨st, thr, ee⟩ now input).1.proto.buf = [] ∧
    (loop_step ⟨st, thr, ee⟩ now input).1.thr = thr ∧
    (loop_step ⟨st, thr, ee⟩ now input).1.eeprom = ee := by
  have hmsgs := loop_step_msgs ⟨st, thr, ee⟩ now input
  have hproto := loop_step_proto ⟨st, thr, ee⟩ now input
  rcases gnt_shape st now input with ⟨hm, hret⟩ | ⟨v, hm, hret, _, _, _, _⟩ |
      ⟨e, hm, he, hret, hbuf⟩
  · rw [hmsgs, hm] at hmem
    exact absurd hmem (List.not_mem_nil m)
  · rw [hmsgs, hm, List.mem_singleton] at hmem
    subst hmem
    simp [isErr] at herr
  · rw [hmsgs, hm, List.mem_singleton] at hmem
    subst hmem
    have hnu := loop_step_no_update ⟨st, thr, ee⟩ now input
      (by rw [hret]; norm_num)
    exact ⟨by rw [hmsgs, hm], by rw [hproto, hbuf], hnu.1, hnu.2⟩

/-- Witness for C5: a pending byte with an in-flight accumulation whose
250 ms deadline has passed produces exactly `E:TIMEOUT`, clears the
accumulation, and leaves threshold and store untouched. -/
theorem C5_rejection_one_error_no_mutation_witness :
    (loop_step ⟨⟨['1'], 0⟩, mkRat 1 2, mkRat 1 2⟩ 1000 []).2.2 = [Msg.timeout] ∧
    (loop_step ⟨⟨['1'], 0⟩, mkRat 1 2, mkRat 1 2⟩ 1000 []).1.proto.buf = [] ∧
    (loop_step ⟨⟨['1'], 0⟩, mkRat 1 2, mkRat 1 2⟩ 1000 []).1.thr = mkRat 1 2 ∧
    (loop_step ⟨⟨['1'], 0⟩, mkRat 1 2, mkRat 1 2⟩ 1000 []).1.eeprom = mkRat 1 2 :=
  C5_rejection_one_error_no_mutation ⟨['1'], 0⟩ (mkRat 1 2) (mkRat 1 2) 1000 []
    Msg.timeout (by decide) (by decide)

/-- Claim C1 counterexample: the line `"0\n"` parses to `v = 0 ∈ [0, 1)` and is
answered with `OK:` and returned, but the main loop's `threshold > 0.0`
guard rejects it, so the live threshold stays at its previous value 0.5
and nothing is persisted — the claim fails at `v = 0`. -/
theorem C1_counterexample_zero_accepted_but_not_applied :
    (get_new_threshold ⟨['0'], 0⟩ 0 ['\n']).msgs = [Msg.ok 0] ∧
    (get_new_threshold ⟨['0'], 0⟩ 0 ['\n']).ret = 0 ∧
    (0 : ℚ) ≤ 0 ∧ (0 : ℚ) < 1 ∧
    (loop_step ⟨⟨['0'], 0⟩, mkRat 1 2, mkRat 1 2⟩ 0 ['\n']).1.thr = mkRat 1 2 ∧
    (loop_step ⟨⟨['0'], 0⟩, mkRat 1 2, mkRat 1 2⟩ 0 ['\n']).1.eeprom = mkRat 1 2 ∧
    ¬ (mkRat 1 2 = 0) := by
  decide

/-- Claim C1 (amended): for every terminated input line whose accumulated text
parses to `v` with `0 < v < 1`, `get_new_threshold` replies `OK:` with
the value and returns it, and the main loop installs `v` as the live
threshold and persists it.  (For `v = 0` the reply is still `OK:` but the
loop's `threshold > 0.0` guard leaves the live and persisted values
unchanged.) -/
theorem C1_amended_accepted_positive_updates_and_persists
    (st : ProtoState) (thr ee : ℚ) (now : Nat) (c : Char) (rest : List Char)
    (hterm : c = '\r' ∨ c = '\n')
    (hlive : st.buf.length = 0 ∨ now ≤ st.timestamp + 250)
    (hroom : st.buf.length < 19)
    (hpos : 0 < atof st.buf) (hlt : atof st.buf < 1) :
    (get_new_threshold st now (c :: rest)).msgs = [Msg.ok (atof st.buf)] ∧
    (get_new_threshold st now (c :: rest)).ret = atof st.buf ∧
    (get_new_threshold st now (c :: rest)).state.buf = [] ∧
    (loop_step ⟨st, thr, ee⟩ now (c :: rest)).1.thr = atof st.buf ∧
    (loop_step ⟨st, thr, ee⟩ now (c :: rest)).1.eeprom = atof st.buf := by
  have hto : ¬ (0 < st.buf.length ∧ st.timestamp + 250 < now) := by
    rcases hlive with h | h <;> omega
  have hval : ¬ (atof st.buf < 0 ∨ 1 ≤ atof st.buf) := by
    push_neg
    exact ⟨le_of_lt hpos, hlt⟩
  have h19 : st.buf.length < 20 - 1 := by omega
  have hr : get_new_threshold st now (c :: rest) =
      ⟨⟨[], if st.buf.length = 0 then now else st.timestamp⟩, [],
        [Msg.ok (atof st.buf)], atof st.buf⟩ := by
    unfold get_new_threshold
    rw [if_neg hto]
    dsimp only
    rw [if_pos h19, if_pos hterm, if_neg hval]
  have hup : (loop_step ⟨st, thr, ee⟩ now (c :: rest)).1.thr = atof st.buf ∧
      (loop_step ⟨st, thr, ee⟩ now (c :: rest)).1.eeprom = atof st.buf := by
    unfold loop_step
    rw [hr]
    dsimp only
    rw [if_pos hpos]
    exact ⟨rfl, rfl⟩
  rw [hr]
  exact ⟨rfl, rfl, rfl, hup.1, hup.2⟩

/-- Witness for C1 (amended): the line `"0.75\n"` installs and persists
`0.75`. -/
theorem C1_amended_accepted_positive_updates_and_persists_witness :
    (get_new_threshold ⟨['0', '.', '7', '5'], 0⟩ 0 ['\n']).msgs =
      [Msg.ok (atof ['0', '.', '7', '5'])] ∧
    (get_new_threshold ⟨['0', '.', '7', '5'], 0⟩ 0 ['\n']).ret =
      atof ['0', '.', '7', '5'] ∧
    (get_new_threshold ⟨['0', '.', '7', '5'], 0⟩ 0 ['\n']).state.buf = [] ∧
    (loop_step ⟨⟨['0', '.', '7', '5'], 0⟩, mkRat 1 2, mkRat 1 2⟩ 0 ['\n']).1.thr =
      atof ['0', '.', '7', '5'] ∧
    (loop_step ⟨⟨['0', '.', '7', '5'], 0⟩, mkRat 1 2, mkRat 1 2⟩ 0 ['\n']).1.eeprom =
      atof ['0', '.', '7', '5'] :=
  C1_amended_accepted_positive_updates_and_persists ⟨['0', '.', '7', '5'], 0⟩
    (mkRat 1 2) (mkRat 1 2) 0 '\n' [] (Or.inr rfl) (Or.inr (by decide)) (by decide)
    (by decide) (by decide)

/-- Fidelity of the `double` parse at the acceptance boundary: the
18-byte payload `".99999999999999999"` passes the length guard, but its
exact value `1 − 10⁻¹⁷` rounds to exactly 1.0 in binary64, so the
protocol rejects the line with `E:OVERFLOW` and returns −1, exactly as
the program does — the amended C1 theorem does not apply to it because
its `atof st.buf < 1` hypothesis fails. -/
theorem atof_boundary_overflow :
    atof ('.' :: List.replicate 17 '9') = 1 ∧
    get_new_threshold ⟨'.' :: List.replicate 17 '9', 0⟩ 0 ['\n'] =
      ⟨⟨[], 0⟩, [], [Msg.overflow], -1⟩ := by
  decide

/-- Claim C10: once 19 bytes are accumulated without a terminator, the next
byte — terminator or not — triggers the `E:FLUSH` rejection and discards
the partial input; consequently a line can only be accepted if its
payload has at most 18 characters before the terminator (first
conjunct: the full-buffer behaviour for an arbitrary next byte; second
conjunct: any invocation that replies `OK:` started from at most 18
accumulated bytes, although the buffer itself holds 20). -/
theorem C10_full_buffer_flushes_even_terminator_and_accept_bound :
    (∀ (st : ProtoState) (now : Nat) (c : Char) (rest : List Char),
        st.buf.length = 19 → now ≤ st.timestamp + 250 →
        get_new_threshold st now (c :: rest) =
          ⟨⟨[], st.timestamp⟩, [], [Msg.bufferFull], -1⟩) ∧
    (∀ (st : ProtoState) (now : Nat) (input : List Char) (v : ℚ),
        (get_new_threshold st now input).msgs = [Msg.ok v] →
        st.buf.length ≤ 18) := by
  constructor
  · intro st now c rest hlen hlive
    have hto : ¬ (0 < st.buf.length ∧ st.timestamp + 250 < now) := by omega
    have hfull : ¬ (st.buf.length < 20 - 1) := by omega
    have hne : ¬ (st.buf.length = 0) := by omega
    unfold get_new_threshold
    rw [if_neg hto]
    dsimp only
    rw [if_neg hne, if_neg hfull]
  · intro st now input v hok
    rcases gnt_shape st now input with ⟨hm, _⟩ | ⟨w, hm, _, _, _, _, hlen⟩ |
        ⟨e, hm, he, _, _⟩
    · rw [hm] at hok
      exact absurd hok (by simp)
    · exact hlen
    · rw [hm] at hok
      rw [List.cons.injEq] at hok
      rw [hok.1] at he
      simp [isErr] at he

/-- Witness for C10: with 19 accumulated digits, even an incoming `'\n'`
is answered with `E:FLUSH`, and an invocation accepting `0.5` had only 3
accumulated bytes. -/
theorem C10_full_buffer_flushes_even_terminator_and_accept_bound_witness :
    get_new_threshold
        ⟨['1', '1', '1', '1', '1', '1', '1', '1', '1', '1', '1', '1', '1',
          '1', '1', '1', '1', '1', '1'], 0⟩ 0 ['\n'] =
      ⟨⟨[], 0⟩, [], [Msg.bufferFull], -1⟩ ∧
    (⟨['0', '.', '5'], 0⟩ : ProtoState).buf.length ≤ 18 :=
  ⟨C10_full_buffer_flushes_even_terminator_and_accept_bound.1
      ⟨['1', '1', '1', '1', '1', '1', '1', '1', '1', '1', '1', '1', '1',
        '1', '1', '1', '1', '1', '1'], 0⟩ 0 '\n' [] (by decide) (by decide),
   C10_full_buffer_flushes_even_terminator_and_accept_bound.2
      ⟨['0', '.', '5'], 0⟩ 0 ['\n'] (mkRat 1 2) (by decide)⟩

/-- Auxiliary invariant for C9: every reachable live threshold lies in
`(0, 1)`. -/
theorem reachable_thr_bounds (s : SysState) (hs : ReachableSys s) :
    0 < s.thr ∧ s.thr < 1 := by
  induction hs with
  | init stored hst =>
    dsimp only
    unfold read_amplitude_threshold_from_eeprom
    rcases hst with h0 | ⟨h1, h2⟩
    · rw [if_pos h0]
      constructor <;> decide
    · rw [if_neg (ne_of_gt h1)]
      exact ⟨h1, h2⟩
  | step s now input hs ih =>
    rcases gnt_shape s.proto now input with ⟨_, hret⟩ | ⟨v, _, hret, _, hlt, _, _⟩ |
        ⟨e, _, _, hret, _⟩
    · have h := loop_step_no_update s now input (by rw [hret]; norm_num)
      rw [h.1]; exact ih
    · by_cases hpos : 0 < (get_new_threshold s.proto now input).ret
      · have hthr : (loop_step s now input).1.thr =
            (get_new_threshold s.proto now input).ret := by
          unfold loop_step; dsimp only; rw [if_pos hpos]
        rw [hthr, hret]
        exact ⟨by rw [hret] at hpos; exact hpos, hlt⟩
      · have h := loop_step_no_update s now input hpos
        rw [h.1]; exact ih
    · have h := loop_step_no_update s now input (by rw [hret]; norm_num)
      rw [h.1]; exact ih

/-- Claim C9: at every state reachable from startup (store zero or holding a
previously persisted accepted value), the live amplitude threshold lies
in `[0, 1)` — including right after initialization from the store, with
default 0.5 on a zero store — and whenever a `loop` poll changes the
live threshold, the change is an accepted `OK:` protocol update whose
value, also in `(0, 1)`, is simultaneously persisted. -/
theorem C9_threshold_in_range_mutated_only_by_accepted_update
    (s : SysState) (hs : ReachableSys s) :
    (0 ≤ s.thr ∧ s.thr < 1) ∧
    ∀ (now : Nat) (input : List Char),
      (loop_step s now input).1.thr ≠ s.thr →
        (loop_step s now input).2.2 =
            [Msg.ok ((loop_step s now input).1.thr)] ∧
          (loop_step s now input).1.eeprom = (loop_step s now input).1.thr ∧
          0 < (loop_step s now input).1.thr ∧
          (loop_step s now input).1.thr < 1 := by
  obtain ⟨h0, h1⟩ := reachable_thr_bounds s hs
  refine ⟨⟨le_of_lt h0, h1⟩, ?_⟩
  intro now input hchg
  by_cases hpos : 0 < (get_new_threshold s.proto now input).ret
  · have hthr : (loop_step s now input).1.thr =
        (get_new_threshold s.proto now input).ret := by
      unfold loop_step; dsimp only; rw [if_pos hpos]
    have hee : (loop_step s now input).1.eeprom =
        (get_new_threshold s.proto now input).ret := by
      unfold loop_step; dsimp only; rw [if_pos hpos]
    rcases gnt_shape s.proto now input with ⟨_, hret⟩ | ⟨v, hm, hret, _, hlt, _, _⟩ |
        ⟨e, _, _, hret, _⟩
    · rw [hret] at hpos; norm_num at hpos
    · refine ⟨?_, by rw [hee, hthr], by rw [hthr]; exact hpos, by rw [hthr, hret]; exact hlt⟩
      rw [loop_step_msgs, hm, hthr, hret]
    · rw [hret] at hpos; norm_num at hpos
  · have h := loop_step_no_update s now input hpos
    exact absurd h.1 hchg

/-- Witness for C9: after reaching the state that has accumulated `".7"`,
the bounds hold, and the poll that consumes the terminator changes the
threshold to 0.7, reporting `OK:` and persisting it. -/
theorem C9_threshold_in_range_mutated_only_by_accepted_update_witness :
    (0 ≤ sys₂.thr ∧ sys₂.thr < 1) ∧
    ((loop_step sys₂ 0 ['\n']).2.2 =
        [Msg.ok ((loop_step sys₂ 0 ['\n']).1.thr)] ∧
      (loop_step sys₂ 0 ['\n']).1.eeprom = (loop_step sys₂ 0 ['\n']).1.thr ∧
      0 < (loop_step sys₂ 0 ['\n']).1.thr ∧
      (loop_step sys₂ 0 ['\n']).1.thr < 1) := by
  have hreach : ReachableSys sys₂ :=
    ReachableSys.step sys₁ 0 ['7']
      (ReachableSys.step sys₀ 0 ['.'] (ReachableSys.init 0 (Or.inl rfl)))
  have h := C9_threshold_in_range_mutated_only_by_accepted_update sys₂ hreach
  exact ⟨h.1, h.2 0 ['\n'] (by decide)⟩

/-- Claim C6: from the reset state, after `n` ticks the fill index is
`n % 1024`; the ready flag has been raised exactly when at least one
frame completed (`512 ≤ n`), and a tick raises it exactly when it
completes a multiple of 512 samples; when the fill index reaches 512 the
exposed pointer is the first half-buffer and when it reaches 1024 it is
the second, i.e. after `n ≥ 512` ticks the pointer is `some 0` iff
`512 ≤ n % 1024`; and the exposed pointer never lies in the half-buffer
currently accepting samples. -/
theorem C6_double_buffer_handoff (stream : Nat → Int) (n : Nat) :
    (run_sampler stream n).fill = n % 1024 ∧
    ((run_sampler stream n).full = true ↔ 512 ≤ n) ∧
    (run_sampler stream n).ptr =
      (if n < 512 then none
       else if 512 ≤ n % 1024 then some 0 else some 512) ∧
    (frame_completed (run_sampler stream n) = true ↔ (n + 1) % 512 = 0) ∧
    ptr_avoids_filling (run_sampler stream n) = true := by
  induction n with
  | zero =>
    refine ⟨rfl, by simp [run_sampler, start_sampling], ?_, ?_, by rfl⟩
    · simp [run_sampler, start_sampling]
    · simp [run_sampler, start_sampling, frame_completed]
  | succ n ih =>
    obtain ⟨hfill, hfull, hptr, _, _⟩ := ih
    have hrun : run_sampler stream (n + 1) =
        sampling_interrupt (stream n) (run_sampler stream n) := rfl
    rw [hrun]
    unfold sampling_interrupt
    by_cases h512 : (run_sampler stream n).fill + 1 = 512
    · rw [if_pos h512]
      refine ⟨by dsimp only; omega, by dsimp only; simp; omega, ?_, ?_, ?_⟩
      · have h1 : ¬ (n + 1 < 512) := by omega
        have h2 : 512 ≤ (n + 1) % 1024 := by omega
        rw [if_neg h1, if_pos h2]
      · simp only [frame_completed, Bool.or_eq_true, beq_iff_eq]
        omega
      · simp only [ptr_avoids_filling, decide_eq_true_eq]
        omega
    · rw [if_neg h512]
      by_cases h1024 : (run_sampler stream n).fill + 1 = 1024
      · rw [if_pos h1024]
        refine ⟨by dsimp only; omega, by dsimp only; simp; omega, ?_, ?_, ?_⟩
        · have h1 : ¬ (n + 1 < 512) := by omega
          have h2 : ¬ 512 ≤ (n + 1) % 1024 := by omega
          rw [if_neg h1, if_neg h2]
        · simp only [frame_completed, Bool.or_eq_true, beq_iff_eq]
          omega
        · simp only [ptr_avoids_filling, decide_eq_true_eq]
          omega
      · rw [if_neg h1024]
        refine ⟨by dsimp only; omega, by dsimp only; rw [hfull]; omega, ?_, ?_, ?_⟩
        · show (run_sampler stream n).ptr = _
          rw [hptr]
          split_ifs <;> first | rfl | (exfalso; omega)
        · simp only [frame_completed, Bool.or_eq_true, beq_iff_eq]
          omega
        · show ptr_avoids_filling ⟨_, _, _, (run_sampler stream n).ptr, _⟩ = true
          simp only [ptr_avoids_filling]
          rw [hptr]
          by_cases hn : n < 512
          · rw [if_pos hn]
          · by_cases hcase : 512 ≤ n % 1024
            · rw [if_neg hn, if_pos hcase]
              simp only [decide_eq_true_eq]
              omega
            · rw [if_neg hn, if_neg hcase]
              simp only [decide_eq_true_eq]
              omega

theorem joinComma_cons (g : List Out) (gs : List (List Out)) :
    joinComma (g :: gs) =
      g ++ (if gs.isEmpty then [] else Out.comma :: joinComma gs) := by
  cases gs with
  | nil => simp [joinComma]
  | cons g' rest => simp [joinComma]

theorem floor_frequency (b : Nat) : ⌊(512 : ℝ) / 512 * (b : ℝ) + 0.5⌋ = b := by
  have h : (512 : ℝ) / 512 * (b : ℝ) + 0.5 = (b : ℕ) + 0.5 := by norm_num
  rw [h, Int.floor_nat_add]
  norm_num

theorem report_loop_spec (fr fi : Nat → Int) (threshold : ℝ) :
    ∀ (count bin : Nat) (first : Bool),
      report_loop fr fi threshold count bin first =
        (let Q := (binRange bin count).filter
            fun b => decide (threshold ≤ magnitude fr fi b)
         ((if Q.isEmpty then []
           else (if first then [] else [Out.comma]) ++
             joinComma (Q.map (entryOf fr fi))),
          first && Q.isEmpty)) := by
  intro count
  induction count with
  | zero =>
    intro bin first
    simp [report_loop, binRange, joinComma]
  | succ c ih =>
    intro bin first
    show report_loop fr fi threshold (c + 1) bin first = _
    unfold report_loop
    have hbr : binRange bin (c + 1) = bin :: binRange (bin + 1) c := rfl
    by_cases hq : threshold ≤ magnitude fr fi bin
    · rw [if_pos hq]
      have hfil : (binRange bin (c + 1)).filter
            (fun b => decide (threshold ≤ magnitude fr fi b)) =
          bin :: (binRange (bin + 1) c).filter
            (fun b => decide (threshold ≤ magnitude fr fi b)) := by
        rw [hbr]
        simp [List.filter_cons, hq]
      rw [ih (bin + 1) false]
      dsimp only
      rw [hfil]
      cases hQ : (binRange (bin + 1) c).filter
          (fun b => decide (threshold ≤ magnitude fr fi b)) with
      | nil =>
        simp [joinComma_cons, entryOf, floor_frequency]
        norm_num
      | cons q qs =>
        simp [joinComma_cons, entryOf, floor_frequency]
        norm_num
    · rw [if_neg hq]
      have hfil : (binRange bin (c + 1)).filter
            (fun b => decide (threshold ≤ magnitude fr fi b)) =
          (binRange (bin + 1) c).filter
            (fun b => decide (threshold ≤ magnitude fr fi b)) := by
        rw [hbr]
        simp [List.filter_cons, hq]
      rw [ih (bin + 1) first]
      dsimp only
      rw [hfil]

/-- Claim C7: for every transformed frame and threshold, `report` walks bins 10
through 150 inclusive in ascending order, qualifies exactly the bins
whose magnitude `√((re/32768)² + (im/32768)²)` reaches the threshold,
emits them as comma-separated pairs of rounded frequency
(`⌊bin·512/512 + 0.5⌋ = bin`) and amplitude, terminates the line with a
newline exactly when at least one bin qualified (emitting nothing at all
otherwise), and raises the report-created flag exactly when a non-empty
line was emitted. -/
theorem C7_report_emits_qualifying_bins (fr fi : Nat → Int) (threshold : ℝ) :
    report fr fi 257 threshold =
      (if (qualifying fr fi threshold).isEmpty then ([], false)
       else (joinComma ((qualifying fr fi threshold).map (entryOf fr fi)) ++
           [Out.newline], true)) := by
  show (let r := report_loop fr fi threshold 141 10 true
        if r.2 = false then (r.1 ++ [Out.newline], true) else (r.1, false)) = _
  rw [report_loop_spec fr fi threshold 141 10 true]
  dsimp only
  cases hQ : (binRange 10 141).filter
      (fun b => decide (threshold ≤ magnitude fr fi b)) with
  | nil =>
    simp [qualifying, hQ]
  | cons q qs =>
    simp [qualifying, hQ]

end Geophone
